import Mathlib

/-!
# Resume keyword analyzer: text normalisation, keyword extraction, matching, scoring

A shallow embedding of `src/index.js` (`cleanText`, `extractKeywordsFromJD`,
`findPresentAndMissing` and the score computation of the click handler), and
theorems about it.

A JavaScript string is the list of its UTF-16 code units (`JSString`); the
regular expressions of the source have no `u` flag and work on code units.
The Unicode case-mapping tables of the JavaScript engine are not in the
repository: for code units below 128 the mapping is written out, for the
others it is a parameter (`CaseTables`) on which no assumption is made.
-/

namespace ResumeAnalyzer

/-- A JavaScript string, as the list of its UTF-16 code units. -/
abbrev JSString := List Nat

/-- The code units of a string literal (characters of the Basic Multilingual Plane). -/
def str (s : String) : JSString := s.toList.map Char.toNat

/-- The engine's Unicode case mapping for code units from 128 on.
`lower before c after` is what `toLowerCase` writes for the code unit `c` that
stands after the units `before` (nearest first) and before the units `after`;
`upper c` is the upper-case mapping of the one-unit string `c`. -/
structure CaseTables where
  lower : List Nat → Nat → List Nat → List Nat
  upper : Nat → List Nat

/-- A table that leaves every code unit from 128 on unchanged. -/
def CaseTables.unchanged : CaseTables := ⟨fun _ c _ => [c], fun c => [c]⟩

/-! ## `String.prototype.toLowerCase` -/

/-- Lower-case mapping of a code unit below 128: `A`-`Z` to `a`-`z`. -/
def asciiLower (c : Nat) : Nat := if 65 ≤ c ∧ c ≤ 90 then c + 32 else c

/-- Upper-case mapping of a code unit below 128: `a`-`z` to `A`-`Z`. -/
def asciiUpper (c : Nat) : Nat := if 97 ≤ c ∧ c ≤ 122 then c - 32 else c

/-- The lower-casing loop: `before` holds the units already read, nearest first. -/
def toLowerCaseFrom (U : CaseTables) : List Nat → JSString → JSString
  | _, [] => []
  | before, c :: rest =>
      (if c < 128 then [asciiLower c] else U.lower before c rest)
        ++ toLowerCaseFrom U (c :: before) rest

/-- The method `s.toLowerCase()`. -/
def toLowerCase (U : CaseTables) (s : JSString) : JSString := toLowerCaseFrom U [] s

/-! ## `cleanText` (index.js, lines 18-23) -/

/-- The character class `[a-z0-9+#+]`. -/
def isKept (c : Nat) : Bool :=
  decide ((97 ≤ c ∧ c ≤ 122) ∨ (48 ≤ c ∧ c ≤ 57) ∨ c = 43 ∨ c = 35)

/-- Line 20: `str.replace(/[^a-z0-9+#+]/g, " ")`. -/
def replaceDisallowed (s : JSString) : JSString :=
  s.map fun c => if isKept c then c else 32

/-- The class `\s`, which is also what `trim` removes: WhiteSpace and LineTerminator. -/
def isWhiteSpace (c : Nat) : Bool :=
  decide (c = 9 ∨ c = 10 ∨ c = 11 ∨ c = 12 ∨ c = 13 ∨ c = 32 ∨ c = 160 ∨ c = 5760
    ∨ (8192 ≤ c ∧ c ≤ 8202) ∨ c = 8232 ∨ c = 8233 ∨ c = 8239 ∨ c = 8287
    ∨ c = 12288 ∨ c = 65279)

/-- The loop of `str.replace(/\s+/g, " ")`; `inRun` tells that the unit before was
white space, whose run has already been replaced. -/
def collapseFrom : Bool → JSString → JSString
  | _, [] => []
  | inRun, c :: rest =>
      if isWhiteSpace c then
        (if inRun then collapseFrom true rest else 32 :: collapseFrom true rest)
      else c :: collapseFrom false rest

/-- Line 21, first call: `str.replace(/\s+/g, " ")`. -/
def collapseWhiteSpace (s : JSString) : JSString := collapseFrom false s

/-- Line 21, second call: `.trim()`. -/
def trim (s : JSString) : JSString := (s.dropWhile isWhiteSpace).rdropWhile isWhiteSpace

/-- The function `cleanText`. -/
def cleanText (U : CaseTables) (s : JSString) : JSString :=
  trim (collapseWhiteSpace (replaceDisallowed (toLowerCase U s)))

/-! ## `extractKeywordsFromJD` (index.js, lines 25-52) -/

/-- The array `multiPhrases`. -/
def multiPhrases : List JSString :=
  [str "machine learning", str "deep learning", str "data analysis",
   str "project management", str "natural language processing",
   str "sql server", str "visual studio"]

/-- The method `s.includes(p)`. -/
def includes : JSString → JSString → Bool
  | [], p => p.isEmpty
  | c :: t, p => p.isPrefixOf (c :: t) || includes t p

/-- The method `s.replace(p, r)` with a string pattern `p`: the first occurrence of
`p` in `s` is replaced by `r` (no `$` in `r`); `s` is unchanged without one. -/
def replaceFirst (p r : JSString) : JSString → JSString
  | [] => if p.isEmpty then r else []
  | c :: t =>
      if p.isPrefixOf (c :: t) then r ++ (c :: t).drop p.length
      else c :: replaceFirst p r t

/-- The method `s.split(" ")`. -/
def splitOnSpace : JSString → List JSString
  | [] => [[]]
  | c :: rest =>
      if c = 32 then [] :: splitOnSpace rest
      else
        match splitOnSpace rest with
        | [] => [[c]]
        | t :: ts => (c :: t) :: ts

/-- The method `set.add(x)` on a `Set` kept in insertion order. -/
def setAdd (set : List JSString) (x : JSString) : List JSString :=
  if x ∈ set then set else set ++ [x]

/-- The constructor `new Set(xs)`. -/
def newSet (xs : List JSString) : List JSString := xs.foldl setAdd []

/-- The order of the default `sort` on strings: `a` before or equal to `b`, by
code units. -/
def strLe : JSString → JSString → Bool
  | [], _ => true
  | _ :: _, [] => false
  | a :: x, b :: y => decide (a < b) || (decide (a = b) && strLe x y)

/-- The method `xs.sort()` on an array of strings. -/
def sort (xs : List JSString) : List JSString :=
  xs.insertionSort fun a b => strLe a b = true

/-- Lines 38-40: the phrases of `multiPhrases` that `jdLower` includes. -/
def foundPhrases (jdLower : JSString) : List JSString :=
  newSet (multiPhrases.filter fun p => includes jdLower p)

/-- Lines 42-44: each found phrase is replaced once by a space, in turn. -/
def stripPhrases (found : List JSString) (jdLower : JSString) : JSString :=
  found.foldl (fun text p => replaceFirst p [32] text) jdLower

/-- The function `extractKeywordsFromJD`. -/
def extractKeywordsFromJD (U : CaseTables) (jdClean : JSString) : List JSString :=
  let jdLower := toLowerCase U jdClean
  let found := foundPhrases jdLower
  let stripped := stripPhrases found jdLower
  let tokens := (splitOnSpace stripped).filter fun t => decide (t.length > 2)
  let set := found.foldl setAdd (newSet tokens)
  sort set

/-! ## `findPresentAndMissing` (index.js, lines 54-70) -/

/-- The class `[.*+?^${}()|[\]\\]` of line 60, which is also the set of syntax
characters of the pattern language. -/
def isSyntaxChar (c : Nat) : Bool :=
  decide (c = 46 ∨ c = 42 ∨ c = 43 ∨ c = 63 ∨ c = 94 ∨ c = 36 ∨ c = 123 ∨ c = 125
    ∨ c = 40 ∨ c = 41 ∨ c = 124 ∨ c = 91 ∨ c = 93 ∨ c = 92)

/-- Line 60: `kw.replace(/[.*+?^${}()|[\]\\]/g, "\\$&")`. -/
def escapeRegExp : JSString → JSString
  | [] => []
  | c :: rest => if isSyntaxChar c then 92 :: c :: escapeRegExp rest else c :: escapeRegExp rest

/-- Line 61: the pattern source `"\\b" + escaped + "\\b"`. -/
def patternSource (kw : JSString) : JSString := [92, 98] ++ escapeRegExp kw ++ [92, 98]

/-- The terms of the patterns that line 61 builds. -/
inductive Term where
  | wordBoundary : Term
  | char : Nat → Term
  deriving DecidableEq, Repr

/-- The pattern parser, for the part of the pattern language made of `\b`, of a
syntax character after a backslash and of characters that are not syntax
characters; `none` for a source outside that part. `fuel` bounds the number of
terms. -/
def parsePattern : Nat → JSString → Option (List Term)
  | _, [] => some []
  | 0, _ :: _ => none
  | fuel + 1, c :: rest =>
      if c = 92 then
        match rest with
        | [] => none
        | d :: rest2 =>
            if d = 98 then (parsePattern fuel rest2).map (Term.wordBoundary :: ·)
            else if isSyntaxChar d then (parsePattern fuel rest2).map (Term.char d :: ·)
            else none
      else if isSyntaxChar c then none
      else (parsePattern fuel rest).map (Term.char c :: ·)

/-- The constructor `new RegExp(source, "i")`. -/
def compile (source : JSString) : Option (List Term) := parsePattern source.length source

/-- The word characters of `\b`: `[A-Za-z0-9_]`. -/
def isWordChar (c : Nat) : Bool :=
  decide ((97 ≤ c ∧ c ≤ 122) ∨ (65 ≤ c ∧ c ≤ 90) ∨ (48 ≤ c ∧ c ≤ 57) ∨ c = 95)

/-- Whether the unit at the head of a side of the input is a word character;
`false` at an end of the input. -/
def wordAt : List Nat → Bool
  | [] => false
  | c :: _ => isWordChar c

/-- The operation Canonicalize of a pattern with the `i` flag and without the `u`
flag: the upper-case mapping when it is one code unit, except that a unit from 128
on is never sent below 128. -/
def canonicalize (U : CaseTables) (ch : Nat) : Nat :=
  match (if ch < 128 then [asciiUpper ch] else U.upper ch) with
  | [cu] => if 128 ≤ ch ∧ cu < 128 then ch else cu
  | _ => ch

/-- Matching a list of terms at one position of the input: `before` holds the
units to the left, nearest first, `after` the units to the right. -/
def matchTerms (U : CaseTables) : List Term → List Nat → List Nat → Bool
  | [], _, _ => true
  | Term.wordBoundary :: ts, before, after =>
      (wordAt before != wordAt after) && matchTerms U ts before after
  | Term.char _ :: _, _, [] => false
  | Term.char c :: ts, before, d :: after =>
      decide (canonicalize U d = canonicalize U c) && matchTerms U ts (d :: before) after

/-- The search of `pattern.test(input)`: a match is tried at every position from
`before` on. -/
def testFrom (U : CaseTables) (ts : List Term) : List Nat → List Nat → Bool
  | before, [] => matchTerms U ts before []
  | before, d :: after =>
      matchTerms U ts before (d :: after) || testFrom U ts (d :: before) after

/-- The method `pattern.test(input)`. -/
def test (U : CaseTables) (ts : List Term) (input : JSString) : Bool := testFrom U ts [] input

/-- The result of `findPresentAndMissing`. -/
structure MatchResult where
  present : List JSString
  missing : List JSString
  deriving DecidableEq, Repr

/-- The body of the `forEach` of lines 59-67 for one keyword; `none` when the
pattern is outside the part of the pattern language that `parsePattern` covers. -/
def classify (U : CaseTables) (resumeLower : JSString) (acc : MatchResult) (kw : JSString) :
    Option MatchResult :=
  match compile (patternSource kw) with
  | none => none
  | some pattern =>
      if test U pattern resumeLower then some ⟨setAdd acc.present kw, acc.missing⟩
      else some ⟨acc.present, setAdd acc.missing kw⟩

/-- The `forEach` of lines 59-67. -/
def classifyAll (U : CaseTables) (resumeLower : JSString) :
    MatchResult → List JSString → Option MatchResult
  | acc, [] => some acc
  | acc, kw :: rest =>
      match classify U resumeLower acc kw with
      | none => none
      | some acc2 => classifyAll U resumeLower acc2 rest

/-- The function `findPresentAndMissing`. -/
def findPresentAndMissing (U : CaseTables) (resumeText : JSString) (jdKeywords : List JSString) :
    Option MatchResult :=
  classifyAll U (toLowerCase U resumeText) ⟨[], []⟩ jdKeywords

/-! ## The score computation of the click handler (index.js, lines 145-152) -/

/-- The function `Math.round`, on exact rationals: the nearest integer, halves upward. -/
def mathRound (x : ℚ) : ℤ := ⌊x + 1 / 2⌋

/-- What the handler computes in lines 145-152. -/
structure Analysis where
  jdKeywords : List JSString
  result : MatchResult
  total : Nat
  score : ℚ

/-- Lines 151-152: `total` and `score` from the keywords and the present set. -/
def scoreOf (jdKeywords : List JSString) (result : MatchResult) : Analysis :=
  let total := if jdKeywords.length = 0 then 1 else jdKeywords.length
  let score := (mathRound (((result.present.length * 10000 : Nat) : ℚ) / (total : ℚ)) : ℚ) / 100
  ⟨jdKeywords, result, total, score⟩

/-- Lines 145-152 of the click handler, from the two raw texts. -/
def analyze (U : CaseTables) (resumeRaw jdRaw : JSString) : Option Analysis :=
  let resumeClean := cleanText U resumeRaw
  let jdClean := cleanText U jdRaw
  let jdKeywords := extractKeywordsFromJD U jdClean
  (findPresentAndMissing U resumeClean jdKeywords).map fun result => scoreOf jdKeywords result

/-! ## Predicates used in the statements -/

/-- Allowed in a normalised text: the class `[a-z0-9+#]` and the space. -/
def Allowed (c : Nat) : Prop := isKept c = true ∨ c = 32

instance Allowed.decidable (c : Nat) : Decidable (Allowed c) := by
  unfold Allowed
  infer_instance

/-- No two adjacent units are both white space. -/
def NoWsPair (a b : Nat) : Prop := ¬ (isWhiteSpace a = true ∧ isWhiteSpace b = true)

/-- The invariant of a normalised text. -/
structure Normalized (s : JSString) : Prop where
  allowed : ∀ c ∈ s, Allowed c
  head : s.head? ≠ some 32
  last : s.getLast? ≠ some 32
  chain : List.Chain' NoWsPair s

/-- The terms of the pattern of a keyword: the keyword's code units between two
word boundaries. -/
def keywordTerms (kw : JSString) : List Term :=
  Term.wordBoundary :: (kw.map Term.char ++ [Term.wordBoundary])

/-- Whether the pattern of the keyword `kw` matches somewhere in `resumeLower`. -/
def keywordMatches (U : CaseTables) (resumeLower kw : JSString) : Bool :=
  test U (keywordTerms kw) resumeLower

/-- A letter or a digit: `[A-Za-z0-9]`. -/
def isLetterOrDigit (c : Nat) : Bool :=
  decide ((97 ≤ c ∧ c ≤ 122) ∨ (65 ≤ c ∧ c ≤ 90) ∨ (48 ≤ c ∧ c ≤ 57))

/-- A boundary match of `k` in `r`: an occurrence of `k` as a substring of `r` that
is neither immediately preceded nor immediately followed by a letter or digit. -/
def BoundaryOccurrence (k r : JSString) : Prop :=
  ∃ a b, r = a ++ k ++ b
    ∧ (∀ c, a.getLast? = some c → isLetterOrDigit c = false)
    ∧ (∀ c, b.head? = some c → isLetterOrDigit c = false)

/-- The phrase `p` stands in `t` between spaces or ends of the text, and none of its
words occurs in the rest of `t`. -/
def PhraseIntact (p t : JSString) : Prop :=
  ∃ a b, t = a ++ p ++ b
    ∧ (∀ c, a.getLast? = some c → c = 32) ∧ (∀ c, b.head? = some c → c = 32)
    ∧ ∀ w ∈ splitOnSpace p, ¬ w <:+: a ∧ ¬ w <:+: b

/-- No word of the phrase `p` occurs in `t`. -/
def WordsGone (p t : JSString) : Prop := ∀ w ∈ splitOnSpace p, ¬ w <:+: t

/-- The number of positions of `s` at which `p` occurs. -/
def occurrences (p s : JSString) : Nat := (s.tails.filter fun t => p.isPrefixOf t).length

/-! ## Lemmas on `cleanText` -/

theorem isWhiteSpace_space : isWhiteSpace 32 = true := by decide

theorem allowed_ws {c : Nat} (h : Allowed c) (hw : isWhiteSpace c = true) : c = 32 := by
  rcases h with h | h
  · simp only [isKept, isWhiteSpace, decide_eq_true_eq] at h hw
    omega
  · exact h

theorem allowed_replaceDisallowed (s : JSString) : ∀ c ∈ replaceDisallowed s, Allowed c := by
  intro c hc
  simp only [replaceDisallowed, List.mem_map] at hc
  obtain ⟨d, -, rfl⟩ := hc
  by_cases h : isKept d = true
  · simp only [h, if_true]; exact Or.inl h
  · simp only [h]; exact Or.inr rfl

theorem mem_collapseFrom (b : Bool) (s : JSString) :
    ∀ c ∈ collapseFrom b s, c ∈ s ∨ c = 32 := by
  induction s generalizing b with
  | nil => intro c hc; simp [collapseFrom] at hc
  | cons d rest ih =>
    intro c hc
    unfold collapseFrom at hc
    by_cases hw : isWhiteSpace d = true
    · rw [if_pos hw] at hc
      cases b with
      | true =>
        simp only [if_true] at hc
        rcases ih true c hc with h | h
        · exact Or.inl (List.mem_cons_of_mem _ h)
        · exact Or.inr h
      | false =>
        simp only [Bool.false_eq_true, if_false, List.mem_cons] at hc
        rcases hc with h | h
        · exact Or.inr h
        · rcases ih true c h with h | h
          · exact Or.inl (List.mem_cons_of_mem _ h)
          · exact Or.inr h
    · rw [if_neg hw] at hc
      simp only [List.mem_cons] at hc
      rcases hc with h | h
      · exact Or.inl (h ▸ List.mem_cons_self _ _)
      · rcases ih false c h with h | h
        · exact Or.inl (List.mem_cons_of_mem _ h)
        · exact Or.inr h

theorem chain_collapseFrom (b : Bool) (s : JSString) :
    List.Chain' NoWsPair (collapseFrom b s) ∧
      (b = true → ∀ c, (collapseFrom b s).head? = some c → isWhiteSpace c = false) := by
  induction s generalizing b with
  | nil => simp [collapseFrom]
  | cons d rest ih =>
    unfold collapseFrom
    by_cases hw : isWhiteSpace d = true
    · rw [if_pos hw]
      cases b with
      | true => simpa using ih true
      | false =>
        simp only [Bool.false_eq_true, if_false, false_implies, and_true]
        rw [List.chain'_cons']
        refine ⟨?_, (ih true).1⟩
        intro y hy
        have := (ih true).2 rfl y (by simpa using hy)
        simp [NoWsPair, this]
    · rw [if_neg hw]
      refine ⟨?_, ?_⟩
      · rw [List.chain'_cons']
        refine ⟨?_, (ih false).1⟩
        intro y _
        simp [NoWsPair, hw]
      · intro _ c hc
        simp only [List.head?_cons, Option.some.injEq] at hc
        subst hc
        simpa using hw

theorem trim_infix_self (s : JSString) : trim s <:+: s :=
  (List.rdropWhile_prefix isWhiteSpace _).isInfix.trans (List.dropWhile_suffix isWhiteSpace).isInfix

theorem head_trim (s : JSString) : ∀ c, (trim s).head? = some c → isWhiteSpace c = false := by
  intro c hc
  have hp : trim s <+: s.dropWhile isWhiteSpace := List.rdropWhile_prefix isWhiteSpace _
  obtain ⟨t, ht⟩ := hp
  cases htr : trim s with
  | nil => rw [htr] at hc; simp at hc
  | cons d r =>
    rw [htr] at hc ht
    simp only [List.head?_cons, Option.some.injEq] at hc
    subst hc
    have h := List.head?_dropWhile_not isWhiteSpace s
    rw [← ht] at h
    simpa using h

theorem getLast_trim (s : JSString) : ∀ c, (trim s).getLast? = some c → isWhiteSpace c = false := by
  intro c hc
  by_cases hn : trim s = []
  · rw [hn] at hc; simp at hc
  · have h := List.rdropWhile_last_not isWhiteSpace (s.dropWhile isWhiteSpace) hn
    rw [List.getLast?_eq_getLast _ hn] at hc
    simp only [Option.some.injEq] at hc
    rw [← hc]
    simpa [trim] using h

theorem normalized_cleanText (U : CaseTables) (s : JSString) : Normalized (cleanText U s) := by
  refine ⟨?_, ?_, ?_, ?_⟩
  · intro c hc
    have h1 : c ∈ collapseWhiteSpace (replaceDisallowed (toLowerCase U s)) :=
      (trim_infix_self _).subset hc
    rcases mem_collapseFrom false _ c h1 with h | h
    · exact allowed_replaceDisallowed _ c h
    · exact Or.inr h
  · intro h
    have := head_trim _ 32 h
    simp [isWhiteSpace_space] at this
  · intro h
    have := getLast_trim _ 32 h
    simp [isWhiteSpace_space] at this
  · exact List.Chain'.infix (chain_collapseFrom false _).1 (trim_infix_self _)

theorem toLowerCaseFrom_allowed (U : CaseTables) (before : List Nat) (s : JSString)
    (h : ∀ c ∈ s, Allowed c) : toLowerCaseFrom U before s = s := by
  induction s generalizing before with
  | nil => rfl
  | cons c rest ih =>
    have hc : Allowed c := h c (List.mem_cons_self _ _)
    have hlt : c < 128 := by
      rcases hc with hc | hc
      · simp only [isKept, decide_eq_true_eq] at hc; omega
      · omega
    have hlow : asciiLower c = c := by
      unfold asciiLower
      rcases hc with hc | hc
      · simp only [isKept, decide_eq_true_eq] at hc
        rw [if_neg (by omega)]
      · rw [if_neg (by omega)]
    simp only [toLowerCaseFrom, hlt, if_true, hlow, List.singleton_append,
      ih (c :: before) (fun d hd => h d (List.mem_cons_of_mem _ hd))]

theorem toLowerCase_allowed (U : CaseTables) (s : JSString) (h : ∀ c ∈ s, Allowed c) :
    toLowerCase U s = s := toLowerCaseFrom_allowed U [] s h

theorem replaceDisallowed_allowed (s : JSString) (h : ∀ c ∈ s, Allowed c) :
    replaceDisallowed s = s := by
  unfold replaceDisallowed
  conv_rhs => rw [← List.map_id s]
  apply List.map_congr_left
  intro c hc
  rcases h c hc with h1 | h1
  · simp [h1]
  · simp [h1]

theorem collapseFrom_fixed (b : Bool) (s : JSString) (h : ∀ c ∈ s, Allowed c)
    (hch : List.Chain' NoWsPair s)
    (hb : b = true → ∀ c, s.head? = some c → isWhiteSpace c = false) :
    collapseFrom b s = s := by
  induction s generalizing b with
  | nil => rfl
  | cons d rest ih =>
    have hrest : ∀ c ∈ rest, Allowed c := fun c hc => h c (List.mem_cons_of_mem _ hc)
    rw [List.chain'_cons'] at hch
    unfold collapseFrom
    by_cases hw : isWhiteSpace d = true
    · have hd : d = 32 := allowed_ws (h d (List.mem_cons_self _ _)) hw
      have hbf : b = false := by
        cases b with
        | false => rfl
        | true =>
          have := hb rfl d rfl
          rw [hw] at this
          exact absurd this (by decide)
      rw [if_pos hw, hbf]
      simp only [Bool.false_eq_true, if_false]
      rw [ih true hrest hch.2, hd]
      intro _ c hc
      have := hch.1 c (by simpa using hc)
      simp only [NoWsPair, hw, true_and] at this
      simpa using this
    · rw [if_neg hw, ih false hrest hch.2 (by simp)]

theorem trim_fixed (s : JSString) (hh : ∀ c, s.head? = some c → isWhiteSpace c = false)
    (hl : ∀ c, s.getLast? = some c → isWhiteSpace c = false) : trim s = s := by
  have h1 : s.dropWhile isWhiteSpace = s := by
    cases s with
    | nil => rfl
    | cons d r =>
      have := hh d rfl
      simp [List.dropWhile_cons, this]
  unfold trim
  rw [h1, List.rdropWhile_eq_self_iff]
  intro hne
  have := hl (s.getLast hne) (List.getLast?_eq_getLast _ hne)
  simp [this]

theorem cleanText_fixed (U : CaseTables) (s : JSString) (h : Normalized s) :
    cleanText U s = s := by
  have hws : ∀ c, Allowed c → c ≠ 32 → isWhiteSpace c = false := by
    intro c hc hne
    by_contra hcon
    exact hne (allowed_ws hc (by simpa using hcon))
  unfold cleanText collapseWhiteSpace
  rw [toLowerCase_allowed U s h.allowed, replaceDisallowed_allowed s h.allowed,
    collapseFrom_fixed false s h.allowed h.chain (by simp)]
  apply trim_fixed
  · intro c hc
    apply hws c (h.allowed c (List.mem_of_mem_head? hc))
    rintro rfl
    exact h.head hc
  · intro c hc
    apply hws c (h.allowed c (List.mem_of_mem_getLast? hc))
    rintro rfl
    exact h.last hc

/-! ## Lemmas on the pattern of a keyword and on `findPresentAndMissing` -/

theorem mem_setAdd (set : List JSString) (x k : JSString) :
    k ∈ setAdd set x ↔ k ∈ set ∨ k = x := by
  unfold setAdd
  by_cases h : x ∈ set
  · rw [if_pos h]
    constructor
    · exact Or.inl
    · rintro (h1 | rfl)
      · exact h1
      · exact h
  · rw [if_neg h]
    simp

theorem parsePattern_mono (n m : Nat) (src : JSString) (ts : List Term)
    (h : parsePattern n src = some ts) (hnm : n ≤ m) : parsePattern m src = some ts := by
  induction n generalizing m src ts with
  | zero =>
    cases src with
    | nil => cases m <;> simpa [parsePattern] using h
    | cons c rest => simp [parsePattern] at h
  | succ n ih =>
    obtain ⟨m, rfl⟩ : ∃ k, m = k + 1 := ⟨m - 1, by omega⟩
    have hnm2 : n ≤ m := by omega
    cases src with
    | nil => simpa [parsePattern] using h
    | cons c rest =>
      unfold parsePattern at h ⊢
      by_cases hc : c = 92
      · rw [if_pos hc] at h ⊢
        cases rest with
        | nil => simp at h
        | cons d rest2 =>
          simp only at h ⊢
          by_cases hd : d = 98
          · rw [if_pos hd] at h ⊢
            cases hp : parsePattern n rest2 with
            | none => rw [hp] at h; simp at h
            | some us => rw [hp] at h; rw [ih m rest2 us hp hnm2]; exact h
          · rw [if_neg hd] at h ⊢
            by_cases hs : isSyntaxChar d = true
            · rw [if_pos hs] at h ⊢
              cases hp : parsePattern n rest2 with
              | none => rw [hp] at h; simp at h
              | some us => rw [hp] at h; rw [ih m rest2 us hp hnm2]; exact h
            · rw [if_neg hs] at h
              simp at h
      · rw [if_neg hc] at h ⊢
        by_cases hs : isSyntaxChar c = true
        · rw [if_pos hs] at h
          simp at h
        · rw [if_neg hs] at h ⊢
          cases hp : parsePattern n rest with
          | none => rw [hp] at h; simp at h
          | some us => rw [hp] at h; rw [ih m rest us hp hnm2]; exact h

theorem parsePattern_boundary (n : Nat) (rest : JSString) :
    parsePattern (n + 1) (92 :: 98 :: rest)
      = (parsePattern n rest).map (Term.wordBoundary :: ·) := by
  simp [parsePattern]

theorem parsePattern_escaped (n : Nat) (d : Nat) (rest : JSString)
    (hs : isSyntaxChar d = true) :
    parsePattern (n + 1) (92 :: d :: rest) = (parsePattern n rest).map (Term.char d :: ·) := by
  have hd : d ≠ 98 := by
    simp only [isSyntaxChar, decide_eq_true_eq] at hs
    omega
  simp [parsePattern, hd, hs]

theorem parsePattern_plain (n : Nat) (c : Nat) (rest : JSString)
    (hs : ¬ isSyntaxChar c = true) :
    parsePattern (n + 1) (c :: rest) = (parsePattern n rest).map (Term.char c :: ·) := by
  have hc : c ≠ 92 := by
    intro h92
    exact hs (by rw [h92]; decide)
  simp [parsePattern, hc, hs]

theorem parsePattern_escapeRegExp (kw : JSString) (n : Nat) (rest : JSString) (ts : List Term)
    (h : parsePattern n rest = some ts) :
    parsePattern (n + kw.length) (escapeRegExp kw ++ rest) = some (kw.map Term.char ++ ts) := by
  induction kw with
  | nil => simpa [escapeRegExp] using h
  | cons c kw ih =>
    have hlen : n + (c :: kw).length = (n + kw.length) + 1 := by simp; omega
    rw [hlen]
    unfold escapeRegExp
    by_cases hs : isSyntaxChar c = true
    · rw [if_pos hs, List.cons_append, List.cons_append, parsePattern_escaped _ _ _ hs, ih]
      rfl
    · rw [if_neg hs, List.cons_append, parsePattern_plain _ _ _ hs, ih]
      rfl

theorem length_escapeRegExp (kw : JSString) : kw.length ≤ (escapeRegExp kw).length := by
  induction kw with
  | nil => simp [escapeRegExp]
  | cons c kw ih =>
    unfold escapeRegExp
    by_cases hs : isSyntaxChar c = true
    · rw [if_pos hs]; simp; omega
    · rw [if_neg hs]; simp; omega

theorem compile_patternSource (kw : JSString) :
    compile (patternSource kw) = some (keywordTerms kw) := by
  have h1 : parsePattern 1 [92, 98] = some [Term.wordBoundary] := by
    simp [parsePattern]
  have h2 := parsePattern_escapeRegExp kw 1 [92, 98] _ h1
  have h3 : parsePattern (1 + kw.length + 1) (patternSource kw) = some (keywordTerms kw) := by
    have hsrc : patternSource kw = 92 :: 98 :: (escapeRegExp kw ++ [92, 98]) := by
      simp [patternSource]
    rw [hsrc, parsePattern_boundary, h2]
    rfl
  apply parsePattern_mono _ _ _ _ h3
  have := length_escapeRegExp kw
  simp only [patternSource, List.length_append, List.length_cons, List.length_nil]
  omega

theorem classify_eq (U : CaseTables) (resumeLower : JSString) (acc : MatchResult)
    (kw : JSString) :
    classify U resumeLower acc kw =
      some (if keywordMatches U resumeLower kw then ⟨setAdd acc.present kw, acc.missing⟩
        else ⟨acc.present, setAdd acc.missing kw⟩) := by
  unfold classify
  rw [compile_patternSource]
  simp only [keywordMatches]
  split <;> rfl

theorem classifyAll_spec (U : CaseTables) (resumeLower : JSString) (kws : List JSString)
    (acc : MatchResult) :
    ∃ res, classifyAll U resumeLower acc kws = some res
      ∧ (∀ k, k ∈ res.present ↔
          k ∈ acc.present ∨ (k ∈ kws ∧ keywordMatches U resumeLower k = true))
      ∧ (∀ k, k ∈ res.missing ↔
          k ∈ acc.missing ∨ (k ∈ kws ∧ keywordMatches U resumeLower k = false)) := by
  induction kws generalizing acc with
  | nil => exact ⟨acc, rfl, by simp, by simp⟩
  | cons kw rest ih =>
    unfold classifyAll
    rw [classify_eq]
    simp only
    by_cases hm : keywordMatches U resumeLower kw = true
    · rw [if_pos hm]
      obtain ⟨res, hres, hp, hmiss⟩ := ih ⟨setAdd acc.present kw, acc.missing⟩
      refine ⟨res, hres, ?_, ?_⟩
      · intro k
        rw [hp k, mem_setAdd, List.mem_cons]
        constructor
        · rintro ((h | rfl) | ⟨h1, h2⟩)
          · exact Or.inl h
          · exact Or.inr ⟨Or.inl rfl, hm⟩
          · exact Or.inr ⟨Or.inr h1, h2⟩
        · rintro (h | ⟨rfl | h1, h2⟩)
          · exact Or.inl (Or.inl h)
          · exact Or.inl (Or.inr rfl)
          · exact Or.inr ⟨h1, h2⟩
      · intro k
        rw [hmiss k, List.mem_cons]
        constructor
        · rintro (h | ⟨h1, h2⟩)
          · exact Or.inl h
          · exact Or.inr ⟨Or.inr h1, h2⟩
        · rintro (h | ⟨rfl | h1, h2⟩)
          · exact Or.inl h
          · rw [hm] at h2; exact absurd h2 (by decide)
          · exact Or.inr ⟨h1, h2⟩
    · rw [if_neg hm]
      have hm2 : keywordMatches U resumeLower kw = false := by simpa using hm
      obtain ⟨res, hres, hp, hmiss⟩ := ih ⟨acc.present, setAdd acc.missing kw⟩
      refine ⟨res, hres, ?_, ?_⟩
      · intro k
        rw [hp k, List.mem_cons]
        constructor
        · rintro (h | ⟨h1, h2⟩)
          · exact Or.inl h
          · exact Or.inr ⟨Or.inr h1, h2⟩
        · rintro (h | ⟨rfl | h1, h2⟩)
          · exact Or.inl h
          · exact absurd h2 hm
          · exact Or.inr ⟨h1, h2⟩
      · intro k
        rw [hmiss k, mem_setAdd, List.mem_cons]
        constructor
        · rintro ((h | rfl) | ⟨h1, h2⟩)
          · exact Or.inl h
          · exact Or.inr ⟨Or.inl rfl, hm2⟩
          · exact Or.inr ⟨Or.inr h1, h2⟩
        · rintro (h | ⟨rfl | h1, h2⟩)
          · exact Or.inl (Or.inl h)
          · exact Or.inl (Or.inr rfl)
          · exact Or.inr ⟨h1, h2⟩

theorem findPresentAndMissing_spec (U : CaseTables) (resumeText : JSString)
    (kws : List JSString) :
    ∃ res, findPresentAndMissing U resumeText kws = some res
      ∧ (∀ k, k ∈ res.present ↔ (k ∈ kws ∧ keywordMatches U (toLowerCase U resumeText) k = true))
      ∧ (∀ k, k ∈ res.missing ↔
          (k ∈ kws ∧ keywordMatches U (toLowerCase U resumeText) k = false)) := by
  obtain ⟨res, hres, hp, hm⟩ := classifyAll_spec U (toLowerCase U resumeText) kws ⟨[], []⟩
  refine ⟨res, hres, ?_, ?_⟩
  · intro k; rw [hp k]; simp
  · intro k; rw [hm k]; simp

/-! ## Lemmas on the search of a keyword's pattern -/

theorem testFrom_iff (U : CaseTables) (ts : List Term) (before s : List Nat) :
    testFrom U ts before s = true ↔
      ∃ a b, s = a ++ b ∧ matchTerms U ts (a.reverse ++ before) b = true := by
  induction s generalizing before with
  | nil =>
    simp only [testFrom]
    constructor
    · intro h; exact ⟨[], [], rfl, h⟩
    · rintro ⟨a, b, hab, h⟩
      have ha : a = [] := (List.append_eq_nil.mp hab.symm).1
      have hb : b = [] := (List.append_eq_nil.mp hab.symm).2
      subst ha; subst hb
      exact h
  | cons d after ih =>
    simp only [testFrom, Bool.or_eq_true, ih]
    constructor
    · rintro (h | ⟨a, b, hab, h⟩)
      · exact ⟨[], d :: after, rfl, h⟩
      · refine ⟨d :: a, b, by rw [hab]; rfl, ?_⟩
        simpa using h
    · rintro ⟨a, b, hab, h⟩
      cases a with
      | nil =>
        left
        simp only [List.nil_append] at hab
        subst hab
        exact h
      | cons e a =>
        right
        simp only [List.cons_append, List.cons.injEq] at hab
        obtain ⟨rfl, rfl⟩ := hab
        exact ⟨a, b, rfl, by simpa using h⟩

theorem matchTerms_char_nil (U : CaseTables) (c : Nat) (ts : List Term) (before : List Nat) :
    matchTerms U (Term.char c :: ts) before [] = false := rfl

theorem matchTerms_char_cons (U : CaseTables) (c d : Nat) (ts : List Term)
    (before after : List Nat) :
    matchTerms U (Term.char c :: ts) before (d :: after)
      = (decide (canonicalize U d = canonicalize U c) && matchTerms U ts (d :: before) after) :=
  rfl

theorem matchTerms_boundary (U : CaseTables) (ts : List Term) (before after : List Nat) :
    matchTerms U (Term.wordBoundary :: ts) before after
      = ((wordAt before != wordAt after) && matchTerms U ts before after) := by
  cases after <;> rfl

theorem matchTerms_chars (U : CaseTables) (k : JSString) (ts : List Term)
    (before after : List Nat) :
    matchTerms U (k.map Term.char ++ ts) before after = true ↔
      ∃ k2 b, after = k2 ++ b ∧ k2.map (canonicalize U) = k.map (canonicalize U)
        ∧ matchTerms U ts (k2.reverse ++ before) b = true := by
  induction k generalizing before after with
  | nil =>
    simp only [List.map_nil, List.nil_append]
    constructor
    · intro h; exact ⟨[], after, rfl, rfl, h⟩
    · rintro ⟨k2, b, hab, hk, h⟩
      have : k2 = [] := by simpa using hk
      subst this
      simp only [List.nil_append] at hab
      subst hab
      exact h
  | cons c k ih =>
    cases after with
    | nil =>
      rw [List.map_cons, List.cons_append, matchTerms_char_nil]
      constructor
      · intro h; exact absurd h (by decide)
      · rintro ⟨k2, b, hab, hk, -⟩
        have hk2 : k2 = [] := (List.append_eq_nil.mp hab.symm).1
        subst hk2
        simp at hk
    | cons d after =>
      rw [List.map_cons, List.cons_append, matchTerms_char_cons, Bool.and_eq_true,
        decide_eq_true_eq, ih]
      constructor
      · rintro ⟨hcd, k2, b, hab, hk, h⟩
        refine ⟨d :: k2, b, by rw [hab]; rfl, by simp [hcd, hk], ?_⟩
        simpa using h
      · rintro ⟨k2, b, hab, hk, h⟩
        cases k2 with
        | nil => simp at hk
        | cons e k2 =>
          simp only [List.cons_append, List.cons.injEq] at hab
          obtain ⟨rfl, rfl⟩ := hab
          simp only [List.map_cons, List.cons.injEq] at hk
          exact ⟨hk.1, k2, b, rfl, hk.2, by simpa using h⟩

theorem keywordMatches_iff (U : CaseTables) (r k : JSString) :
    keywordMatches U r k = true ↔
      ∃ a k2 b, r = a ++ k2 ++ b ∧ k2.map (canonicalize U) = k.map (canonicalize U)
        ∧ wordAt a.reverse ≠ wordAt (k2 ++ b)
        ∧ wordAt (k2.reverse ++ a.reverse) ≠ wordAt b := by
  unfold keywordMatches test keywordTerms
  rw [testFrom_iff]
  constructor
  · rintro ⟨a, b, hab, h⟩
    rw [matchTerms_boundary, List.append_nil, Bool.and_eq_true, bne_iff_ne] at h
    obtain ⟨h1, h2⟩ := h
    rw [matchTerms_chars] at h2
    obtain ⟨k2, b2, hb, hk, h3⟩ := h2
    rw [matchTerms_boundary, Bool.and_eq_true, bne_iff_ne] at h3
    replace h3 := h3.1
    subst hb
    exact ⟨a, k2, b2, by rw [hab, List.append_assoc], hk, h1, h3⟩
  · rintro ⟨a, k2, b, hab, hk, h1, h2⟩
    refine ⟨a, k2 ++ b, by rw [hab, List.append_assoc], ?_⟩
    rw [matchTerms_boundary, List.append_nil, Bool.and_eq_true, bne_iff_ne]
    refine ⟨h1, ?_⟩
    rw [matchTerms_chars]
    refine ⟨k2, b, rfl, hk, ?_⟩
    rw [matchTerms_boundary, Bool.and_eq_true, bne_iff_ne]
    exact ⟨h2, by cases b <;> rfl⟩

theorem canonicalize_below (U : CaseTables) (c : Nat) (h : c < 128) :
    canonicalize U c = asciiUpper c := by
  unfold canonicalize
  rw [if_pos h]
  simp only
  rw [if_neg (by omega)]

theorem canonicalize_allowed_inj (U : CaseTables) (c d : Nat) (hc : Allowed c) (hd : Allowed d)
    (h : canonicalize U c = canonicalize U d) : c = d := by
  have hc2 : (97 ≤ c ∧ c ≤ 122) ∨ (48 ≤ c ∧ c ≤ 57) ∨ c = 43 ∨ c = 35 ∨ c = 32 := by
    rcases hc with hc | hc
    · simp only [isKept, decide_eq_true_eq] at hc; omega
    · omega
  have hd2 : (97 ≤ d ∧ d ≤ 122) ∨ (48 ≤ d ∧ d ≤ 57) ∨ d = 43 ∨ d = 35 ∨ d = 32 := by
    rcases hd with hd | hd
    · simp only [isKept, decide_eq_true_eq] at hd; omega
    · omega
  rw [canonicalize_below U c (by omega), canonicalize_below U d (by omega)] at h
  unfold asciiUpper at h
  split_ifs at h <;> omega

theorem map_canonicalize_inj (U : CaseTables) (k2 k : JSString) (h2 : ∀ c ∈ k2, Allowed c)
    (hk : ∀ c ∈ k, Allowed c) (h : k2.map (canonicalize U) = k.map (canonicalize U)) :
    k2 = k := by
  induction k2 generalizing k with
  | nil =>
    cases k with
    | nil => rfl
    | cons d k => simp at h
  | cons c k2 ih =>
    cases k with
    | nil => simp at h
    | cons d k =>
      simp only [List.map_cons, List.cons.injEq] at h
      rw [canonicalize_allowed_inj U c d (h2 c (List.mem_cons_self _ _))
        (hk d (List.mem_cons_self _ _)) h.1,
        ih k (fun e he => h2 e (List.mem_cons_of_mem _ he))
          (fun e he => hk e (List.mem_cons_of_mem _ he)) h.2]

theorem wordAt_eq_false_iff (l : List Nat) :
    wordAt l = false ↔ ∀ c, l.head? = some c → isWordChar c = false := by
  cases l with
  | nil => simp [wordAt]
  | cons d l => simp [wordAt]

theorem isWordChar_allowed (c : Nat) (h : Allowed c) : isWordChar c = isLetterOrDigit c := by
  have h95 : c ≠ 95 := by
    rcases h with h | h
    · simp only [isKept, decide_eq_true_eq] at h; omega
    · omega
  simp only [isWordChar, isLetterOrDigit, h95, or_false]

theorem isWordChar_of_isLetterOrDigit (c : Nat) (h : isLetterOrDigit c = true) :
    isWordChar c = true := by
  simp only [isLetterOrDigit, isWordChar, decide_eq_true_eq] at h ⊢
  omega

/-- On a text and a keyword over the allowed characters, the keyword starting and
ending with a letter or digit, the pattern matches exactly at a boundary match. -/
theorem keywordMatches_allowed (U : CaseTables) (r k : JSString) (hr : ∀ c ∈ r, Allowed c)
    (hk : ∀ c ∈ k, Allowed c) (hne : k ≠ [])
    (hfirst : isLetterOrDigit (k.head hne) = true)
    (hlast : isLetterOrDigit (k.getLast hne) = true) :
    keywordMatches U r k = true ↔ BoundaryOccurrence k r := by
  have hw1 : ∀ b, wordAt (k ++ b) = true := by
    intro b
    cases k with
    | nil => exact absurd rfl hne
    | cons d k => exact isWordChar_of_isLetterOrDigit d hfirst
  have hw2 : ∀ a, wordAt (k.reverse ++ a) = true := by
    intro a
    have hrev : k.reverse ≠ [] := by simpa using hne
    obtain ⟨d, l, hdl⟩ := List.exists_cons_of_ne_nil hrev
    have hd : k.getLast hne = d := by
      have := List.head_reverse hrev
      rw [← this]
      simp [hdl]
    rw [hdl]
    exact isWordChar_of_isLetterOrDigit d (hd ▸ hlast)
  rw [keywordMatches_iff]
  constructor
  · rintro ⟨a, k2, b, hab, hmap, h1, h2⟩
    have hk2 : k2 = k := by
      apply map_canonicalize_inj U k2 k _ hk hmap
      intro c hc
      exact hr c (by rw [hab]; simp [hc])
    subst hk2
    rw [hw1] at h1
    rw [hw2] at h2
    have h1f : wordAt a.reverse = false := by simpa using h1
    have h2f : wordAt b = false := by
      cases hb : wordAt b
      · rfl
      · exact absurd hb.symm h2
    rw [wordAt_eq_false_iff] at h1f h2f
    refine ⟨a, b, hab, ?_, ?_⟩
    · intro c hc
      have hmem : c ∈ r := by
        rw [hab]
        have := List.mem_of_mem_getLast? hc
        simp [this]
      rw [← isWordChar_allowed c (hr c hmem)]
      exact h1f c (by rw [List.head?_reverse]; exact hc)
    · intro c hc
      have hmem : c ∈ r := by
        rw [hab]
        have := List.mem_of_mem_head? hc
        simp [this]
      rw [← isWordChar_allowed c (hr c hmem)]
      exact h2f c hc
  · rintro ⟨a, b, hab, h1, h2⟩
    refine ⟨a, k, b, hab, rfl, ?_, ?_⟩
    · rw [hw1]
      have : wordAt a.reverse = false := by
        rw [wordAt_eq_false_iff]
        intro c hc
        rw [List.head?_reverse] at hc
        have hmem : c ∈ r := by
          rw [hab]
          have := List.mem_of_mem_getLast? hc
          simp [this]
        rw [isWordChar_allowed c (hr c hmem)]
        exact h1 c hc
      rw [this]
      decide
    · rw [hw2]
      have : wordAt b = false := by
        rw [wordAt_eq_false_iff]
        intro c hc
        have hmem : c ∈ r := by
          rw [hab]
          have := List.mem_of_mem_head? hc
          simp [this]
        rw [isWordChar_allowed c (hr c hmem)]
        exact h2 c hc
      rw [this]
      decide

/-! ## Lemmas on sets, on `sort` and on `extractKeywordsFromJD` -/

theorem mem_foldl_setAdd (xs acc : List JSString) (k : JSString) :
    k ∈ xs.foldl setAdd acc ↔ k ∈ acc ∨ k ∈ xs := by
  induction xs generalizing acc with
  | nil => simp
  | cons x xs ih =>
    rw [List.foldl_cons, ih, mem_setAdd, List.mem_cons]
    constructor
    · rintro ((h | h) | h)
      · exact Or.inl h
      · exact Or.inr (Or.inl h)
      · exact Or.inr (Or.inr h)
    · rintro (h | h | h)
      · exact Or.inl (Or.inl h)
      · exact Or.inl (Or.inr h)
      · exact Or.inr h

theorem mem_newSet (xs : List JSString) (k : JSString) : k ∈ newSet xs ↔ k ∈ xs := by
  unfold newSet
  rw [mem_foldl_setAdd]
  simp

theorem nodup_setAdd (set : List JSString) (x : JSString) (h : set.Nodup) :
    (setAdd set x).Nodup := by
  unfold setAdd
  by_cases hx : x ∈ set
  · rw [if_pos hx]; exact h
  · rw [if_neg hx]
    rw [List.nodup_append]
    refine ⟨h, List.nodup_singleton x, ?_⟩
    intro a ha hb
    rw [List.mem_singleton] at hb
    subst hb
    exact hx ha

theorem nodup_foldl_setAdd (xs acc : List JSString) (h : acc.Nodup) :
    (xs.foldl setAdd acc).Nodup := by
  induction xs generalizing acc with
  | nil => exact h
  | cons x xs ih => exact ih _ (nodup_setAdd acc x h)

theorem nodup_newSet (xs : List JSString) : (newSet xs).Nodup :=
  nodup_foldl_setAdd xs [] List.nodup_nil

theorem strLe_total (a b : JSString) : strLe a b = true ∨ strLe b a = true := by
  induction a generalizing b with
  | nil => exact Or.inl rfl
  | cons x a ih =>
    cases b with
    | nil => exact Or.inr rfl
    | cons y b =>
      simp only [strLe, Bool.or_eq_true, Bool.and_eq_true, decide_eq_true_eq]
      rcases Nat.lt_trichotomy x y with h | h | h
      · exact Or.inl (Or.inl h)
      · rcases ih b with h2 | h2
        · exact Or.inl (Or.inr ⟨h, h2⟩)
        · exact Or.inr (Or.inr ⟨h.symm, h2⟩)
      · exact Or.inr (Or.inl h)

theorem strLe_trans (a b c : JSString) (hab : strLe a b = true) (hbc : strLe b c = true) :
    strLe a c = true := by
  induction a generalizing b c with
  | nil => rfl
  | cons x a ih =>
    cases b with
    | nil => simp [strLe] at hab
    | cons y b =>
      cases c with
      | nil => simp [strLe] at hbc
      | cons z c =>
        simp only [strLe, Bool.or_eq_true, Bool.and_eq_true, decide_eq_true_eq] at hab hbc ⊢
        rcases hab with h1 | ⟨h1, h1r⟩
        · rcases hbc with h2 | ⟨h2, _⟩
          · exact Or.inl (by omega)
          · exact Or.inl (by omega)
        · rcases hbc with h2 | ⟨h2, h2r⟩
          · exact Or.inl (by omega)
          · exact Or.inr ⟨by omega, ih b c h1r h2r⟩

theorem lex_of_strLe (a b : JSString) (h : strLe a b = true) (hne : a ≠ b) :
    List.Lex (· < ·) a b := by
  induction a generalizing b with
  | nil =>
    cases b with
    | nil => exact absurd rfl hne
    | cons y b => exact List.Lex.nil
  | cons x a ih =>
    cases b with
    | nil => simp [strLe] at h
    | cons y b =>
      simp only [strLe, Bool.or_eq_true, Bool.and_eq_true, decide_eq_true_eq] at h
      rcases h with h | ⟨h, hr⟩
      · exact List.Lex.rel h
      · subst h
        exact List.Lex.cons (ih b hr (fun hab => hne (by rw [hab])))

theorem mem_sort (xs : List JSString) (k : JSString) : k ∈ sort xs ↔ k ∈ xs :=
  (List.perm_insertionSort _ xs).mem_iff

theorem sorted_sort (xs : List JSString) (h : xs.Nodup) :
    List.Sorted (List.Lex (· < ·)) (sort xs) := by
  haveI : IsTotal JSString (fun a b => strLe a b = true) := ⟨strLe_total⟩
  haveI : IsTrans JSString (fun a b => strLe a b = true) := ⟨strLe_trans⟩
  have h1 : List.Sorted (fun a b => strLe a b = true) (sort xs) :=
    List.sorted_insertionSort _ xs
  have h2 : (sort xs).Nodup := (List.perm_insertionSort _ xs).nodup_iff.mpr h
  have h3 := List.Pairwise.and h1 h2
  exact h3.imp fun hab => lex_of_strLe _ _ hab.1 hab.2

theorem includes_iff (s p : JSString) : includes s p = true ↔ p <:+: s := by
  induction s with
  | nil =>
    simp only [includes, List.isEmpty_iff]
    constructor
    · rintro rfl; exact List.infix_refl _
    · intro h; exact List.eq_nil_of_infix_nil h
  | cons c t ih =>
    rw [includes, Bool.or_eq_true, ih, List.infix_cons_iff, List.isPrefixOf_iff_prefix]

theorem mem_foundPhrases (j p : JSString) :
    p ∈ foundPhrases j ↔ p ∈ multiPhrases ∧ p <:+: j := by
  unfold foundPhrases
  rw [mem_newSet, List.mem_filter, includes_iff]

theorem mem_extractKeywordsFromJD (U : CaseTables) (j k : JSString) :
    k ∈ extractKeywordsFromJD U j ↔
      (k ∈ splitOnSpace (stripPhrases (foundPhrases (toLowerCase U j)) (toLowerCase U j))
          ∧ 2 < k.length)
        ∨ k ∈ foundPhrases (toLowerCase U j) := by
  unfold extractKeywordsFromJD
  simp only [mem_sort, mem_foldl_setAdd, mem_newSet, List.mem_filter, decide_eq_true_eq,
    gt_iff_lt]

theorem mem_extractKeywordsFromJD_of_phrase (U : CaseTables) (s p : JSString)
    (hp : p ∈ multiPhrases) (hin : p <:+: cleanText U s) :
    p ∈ extractKeywordsFromJD U (cleanText U s) := by
  rw [mem_extractKeywordsFromJD, toLowerCase_allowed U _ (normalized_cleanText U s).allowed,
    mem_foundPhrases]
  exact Or.inr ⟨hp, hin⟩

theorem classifyAll_nodup (U : CaseTables) (resumeLower : JSString) (kws : List JSString)
    (acc res : MatchResult) (h : classifyAll U resumeLower acc kws = some res)
    (hp : acc.present.Nodup) : res.present.Nodup := by
  induction kws generalizing acc with
  | nil =>
    simp only [classifyAll, Option.some.injEq] at h
    exact h ▸ hp
  | cons kw rest ih =>
    unfold classifyAll at h
    rw [classify_eq] at h
    simp only at h
    by_cases hm : keywordMatches U resumeLower kw = true
    · rw [if_pos hm] at h
      exact ih _ h (nodup_setAdd _ _ hp)
    · rw [if_neg hm] at h
      exact ih _ h hp

theorem scoreOf_bounds (kws : List JSString) (res : MatchResult)
    (hlen : res.present.length ≤ kws.length) :
    0 ≤ (scoreOf kws res).score ∧ (scoreOf kws res).score ≤ 100 := by
  simp only [scoreOf, mathRound]
  generalize res.present.length = n at hlen ⊢
  generalize kws.length = m at hlen ⊢
  have htot : (0 : ℚ) < ((if m = 0 then 1 else m : Nat) : ℚ) := by
    split_ifs with hm
    · norm_num
    · exact_mod_cast Nat.pos_of_ne_zero hm
  have hle : ((n * 10000 : Nat) : ℚ) ≤ 10000 * ((if m = 0 then 1 else m : Nat) : ℚ) := by
    have : n * 10000 ≤ 10000 * (if m = 0 then 1 else m) := by
      split_ifs with hm
      · omega
      · omega
    exact_mod_cast this
  have hx0 : (0 : ℚ) ≤ ((n * 10000 : Nat) : ℚ) / ((if m = 0 then 1 else m : Nat) : ℚ) :=
    div_nonneg (by positivity) htot.le
  have hx1 : ((n * 10000 : Nat) : ℚ) / ((if m = 0 then 1 else m : Nat) : ℚ) ≤ 10000 := by
    rw [div_le_iff₀ htot]
    exact hle
  constructor
  · have hfl : (0 : ℤ) ≤
        ⌊((n * 10000 : Nat) : ℚ) / ((if m = 0 then 1 else m : Nat) : ℚ) + 1 / 2⌋ :=
      Int.floor_nonneg.mpr (by linarith)
    have : (0 : ℚ) ≤
        (⌊((n * 10000 : Nat) : ℚ) / ((if m = 0 then 1 else m : Nat) : ℚ) + 1 / 2⌋ : ℚ) := by
      exact_mod_cast hfl
    linarith
  · have hfl : ⌊((n * 10000 : Nat) : ℚ) / ((if m = 0 then 1 else m : Nat) : ℚ) + 1 / 2⌋
        < (10001 : ℤ) := by
      rw [Int.floor_lt]
      have h10001 : ((10001 : ℤ) : ℚ) = 10001 := by norm_num
      rw [h10001]
      linarith
    have : (⌊((n * 10000 : Nat) : ℚ) / ((if m = 0 then 1 else m : Nat) : ℚ) + 1 / 2⌋ : ℚ)
        ≤ 10000 := by
      exact_mod_cast Int.lt_add_one_iff.mp hfl
    linarith

/-! ## Lemmas on `replaceFirst` and `splitOnSpace` -/

theorem replaceFirst_cases (q r t : JSString) :
    (¬ q <:+: t ∧ replaceFirst q r t = t)
      ∨ ∃ x y, t = x ++ q ++ y ∧ replaceFirst q r t = x ++ r ++ y := by
  induction t with
  | nil =>
    unfold replaceFirst
    by_cases hq : q.isEmpty = true
    · right
      rw [if_pos hq]
      have : q = [] := List.isEmpty_iff.mp hq
      subst this
      exact ⟨[], [], rfl, by simp⟩
    · left
      rw [if_neg hq]
      refine ⟨?_, rfl⟩
      intro hin
      exact hq (List.isEmpty_iff.mpr (List.eq_nil_of_infix_nil hin))
  | cons c t ih =>
    unfold replaceFirst
    by_cases hq : q.isPrefixOf (c :: t) = true
    · right
      rw [if_pos hq]
      obtain ⟨y, hy⟩ := List.isPrefixOf_iff_prefix.mp hq
      refine ⟨[], y, by rw [← hy]; rfl, ?_⟩
      rw [← hy, List.drop_left]
      rfl
    · rw [if_neg hq]
      rcases ih with ⟨hnot, h⟩ | ⟨x, y, hxy, h⟩
      · left
        refine ⟨?_, by rw [h]⟩
        rw [List.infix_cons_iff]
        rintro (h1 | h1)
        · exact hq (List.isPrefixOf_iff_prefix.mpr h1)
        · exact hnot h1
      · right
        exact ⟨c :: x, y, by rw [hxy]; rfl, by rw [h]; rfl⟩

theorem infix_of_infix_space (w x y : JSString) (h32 : 32 ∉ w) (h : w <:+: x ++ 32 :: y) :
    w <:+: x ∨ w <:+: y := by
  obtain ⟨u, v, huv⟩ := h
  rw [List.append_eq_append_iff] at huv
  rcases huv with ⟨e, hx, _⟩ | ⟨e, huw, hy⟩
  · left
    exact ⟨u, e, hx.symm⟩
  · cases e with
    | nil =>
      left
      rw [List.append_nil] at huw
      exact ⟨u, [], by rw [List.append_nil]; exact huw⟩
    | cons d e =>
      simp only [List.cons_append, List.cons.injEq] at hy
      obtain ⟨hd, hy⟩ := hy
      subst hd
      rw [List.append_eq_append_iff] at huw
      rcases huw with ⟨f, _, hw⟩ | ⟨f, _, hw⟩
      · exact absurd (by rw [hw]; simp) h32
      · cases f with
        | nil =>
          rw [List.nil_append] at hw
          exact absurd (by rw [← hw]; simp) h32
        | cons g f =>
          simp only [List.cons_append, List.cons.injEq] at hw
          right
          exact ⟨f, v, by rw [hy, hw.2]⟩

theorem splitOnSpace_head (s : JSString) :
    ∃ t ts, splitOnSpace s = t :: ts ∧ t <+: s ∧ 32 ∉ t := by
  induction s with
  | nil => exact ⟨[], [], rfl, List.prefix_refl _, by simp⟩
  | cons c rest ih =>
    obtain ⟨t, ts, hsp, hpre, h32⟩ := ih
    unfold splitOnSpace
    by_cases hc : c = 32
    · rw [if_pos hc]
      exact ⟨[], _, rfl, List.nil_prefix, by simp⟩
    · rw [if_neg hc, hsp]
      refine ⟨c :: t, ts, rfl, ?_, ?_⟩
      · obtain ⟨v, hv⟩ := hpre
        exact ⟨v, by rw [← hv]; rfl⟩
      · intro hmem
        rcases List.mem_cons.mp hmem with h | h
        · exact hc h.symm
        · exact h32 h

theorem mem_splitOnSpace (s w : JSString) (hw : w ∈ splitOnSpace s) : w <:+: s ∧ 32 ∉ w := by
  induction s generalizing w with
  | nil =>
    simp only [splitOnSpace, List.mem_singleton] at hw
    subst hw
    exact ⟨List.infix_refl _, by simp⟩
  | cons c rest ih =>
    obtain ⟨t, ts, hsp, hpre, h32⟩ := splitOnSpace_head rest
    unfold splitOnSpace at hw
    by_cases hc : c = 32
    · rw [if_pos hc] at hw
      rcases List.mem_cons.mp hw with h | h
      · subst h
        exact ⟨List.nil_infix, by simp⟩
      · obtain ⟨h1, h2⟩ := ih w h
        exact ⟨List.infix_cons h1, h2⟩
    · rw [if_neg hc, hsp] at hw
      rcases List.mem_cons.mp hw with h | h
      · subst h
        refine ⟨?_, ?_⟩
        · obtain ⟨v, hv⟩ := hpre
          exact ⟨[], v, by rw [← hv]; rfl⟩
        · intro hmem
          rcases List.mem_cons.mp hmem with h | h
          · exact hc h.symm
          · exact h32 h
      · obtain ⟨h1, h2⟩ := ih w (by rw [hsp]; exact List.mem_cons_of_mem _ h)
        exact ⟨List.infix_cons h1, h2⟩

/-! ## Lemmas on the occurrences of the known phrases -/

set_option maxRecDepth 100000 in
theorem phrases_prefix_eq :
    ∀ q ∈ multiPhrases, ∀ p ∈ multiPhrases, q.isPrefixOf p = true → q = p := by
  decide

set_option maxRecDepth 100000 in
theorem phrases_split_after_space :
    ∀ q ∈ multiPhrases, ∀ p ∈ multiPhrases, ∀ i < q.length + 1,
      (q.take i).getLast? = some 32 →
        ((q.drop i).isPrefixOf p = false ∧ p.isPrefixOf (q.drop i) = false) := by
  decide

set_option maxRecDepth 100000 in
theorem phrases_not_inside :
    ∀ q ∈ multiPhrases, ∀ p ∈ multiPhrases, ∀ i < p.length + 1, 0 < i →
      q.isPrefixOf (p.drop i) = false := by
  decide

set_option maxRecDepth 100000 in
theorem phrases_split_before_space :
    ∀ q ∈ multiPhrases, ∀ p ∈ multiPhrases, ∀ i < p.length, 0 < i →
      (p.drop i).isPrefixOf q = true → (q.drop (p.length - i)).head? ≠ some 32 := by
  decide

theorem phrases_have_space : ∀ q ∈ multiPhrases, 32 ∈ q := by
  decide

theorem phrases_eq_of_append_eq (p q b y : JSString) (hp : p ∈ multiPhrases)
    (hq : q ∈ multiPhrases) (h : q ++ y = p ++ b) : q = p ∧ y = b := by
  have h1 : q <+: p ++ b := ⟨y, h⟩
  have h2 : p <+: p ++ b := ⟨b, rfl⟩
  have hqp : q = p := by
    rcases List.prefix_or_prefix_of_prefix h1 h2 with h3 | h3
    · exact phrases_prefix_eq q hq p hp (List.isPrefixOf_iff_prefix.mpr h3)
    · exact (phrases_prefix_eq p hp q hq (List.isPrefixOf_iff_prefix.mpr h3)).symm
  subst hqp
  exact ⟨rfl, List.append_cancel_left h⟩

/-- Where an occurrence of a known phrase `q` can lie in a text in which the known
phrase `p` stands between spaces or ends of the text: before `p`, after `p`, or it
is the occurrence of `p` itself. -/
theorem occurrence_cases (p q a b x y : JSString) (hp : p ∈ multiPhrases)
    (hq : q ∈ multiPhrases) (h : a ++ p ++ b = x ++ q ++ y)
    (hl : ∀ c, a.getLast? = some c → c = 32) (hr : ∀ c, b.head? = some c → c = 32) :
    (∃ m, a = x ++ q ++ m ∧ y = m ++ p ++ b) ∨ (∃ m, b = m ++ q ++ y ∧ x = a ++ p ++ m)
      ∨ (q = p ∧ x = a ∧ y = b) := by
  rw [List.append_assoc, List.append_assoc, List.append_eq_append_iff] at h
  rcases h with ⟨a2, hx, hpb⟩ | ⟨c2, ha, hqy⟩
  · -- the occurrence of `q` starts inside or after `p`
    rw [List.append_eq_append_iff] at hpb
    rcases hpb with ⟨e, ha2, hb⟩ | ⟨c2, hpc, hqy⟩
    · exact Or.inr (Or.inl ⟨e, by rw [hb, List.append_assoc],
        by rw [hx, ha2, List.append_assoc]⟩)
    · by_cases ha2 : a2 = []
      · subst ha2
        rw [List.nil_append] at hpc
        subst hpc
        obtain ⟨h1, h2⟩ := phrases_eq_of_append_eq p q b y hp hq hqy
        exact Or.inr (Or.inr ⟨h1, by rw [hx, List.append_nil], h2⟩)
      · have hi0 : 0 < a2.length := List.length_pos.mpr ha2
        have hdrop : p.drop a2.length = c2 := by rw [hpc, List.drop_left]
        have hlen : p.length = a2.length + c2.length := by rw [hpc, List.length_append]
        rw [List.append_eq_append_iff] at hqy
        rcases hqy with ⟨e, hc2, _⟩ | ⟨e, hqc, hb⟩
        · exfalso
          have := phrases_not_inside q hq p hp a2.length (by omega) hi0
          rw [hdrop, hc2] at this
          have hpre : q.isPrefixOf (q ++ e) = true :=
            List.isPrefixOf_iff_prefix.mpr ⟨e, rfl⟩
          rw [hpre] at this
          exact absurd this (by decide)
        · by_cases hc2 : c2 = []
          · subst hc2
            rw [List.append_nil] at hpc
            rw [List.nil_append] at hqc
            subst hpc; subst hqc
            exact Or.inr (Or.inl ⟨[], by rw [hb]; rfl, by rw [hx, List.append_nil]⟩)
          · exfalso
            have hc0 : 0 < c2.length := List.length_pos.mpr hc2
            have hpre : (p.drop a2.length).isPrefixOf q = true := by
              rw [hdrop]
              exact List.isPrefixOf_iff_prefix.mpr ⟨e, hqc.symm⟩
            have hne := phrases_split_before_space q hq p hp a2.length (by omega) hi0 hpre
            have he : q.drop (p.length - a2.length) = e := by
              rw [hlen, Nat.add_sub_cancel_left, hqc, List.drop_left]
            rw [he] at hne
            cases e with
            | nil =>
              rw [List.append_nil] at hqc
              have := phrases_not_inside q hq p hp a2.length (by omega) hi0
              rw [hdrop, hqc] at this
              have hpre2 : c2.isPrefixOf c2 = true :=
                List.isPrefixOf_iff_prefix.mpr (List.prefix_refl _)
              rw [hpre2] at this
              exact absurd this (by decide)
            | cons d e =>
              have hd : d = 32 := hr d (by rw [hb]; rfl)
              subst hd
              exact hne rfl
  · -- the occurrence of `q` starts before `p`
    rw [List.append_eq_append_iff] at hqy
    rcases hqy with ⟨e, hc2, hy⟩ | ⟨e, hqc, hpb⟩
    · exact Or.inl ⟨e, by rw [ha, hc2, List.append_assoc],
        by rw [hy, List.append_assoc]⟩
    · by_cases hc2 : c2 = []
      · subst hc2
        rw [List.nil_append] at hqc
        subst hqc
        obtain ⟨h1, h2⟩ := phrases_eq_of_append_eq p q b y hp hq hpb.symm
        exact Or.inr (Or.inr ⟨h1, by rw [ha, List.append_nil], h2⟩)
      · exfalso
        have hlast : a.getLast? = some (c2.getLast hc2) := by
          rw [ha, List.getLast?_append_of_ne_nil _ hc2, List.getLast?_eq_getLast _ hc2]
        have h32 : c2.getLast hc2 = 32 := hl _ hlast
        have htake : q.take c2.length = c2 := by rw [hqc, List.take_left]
        have hdrop : q.drop c2.length = e := by rw [hqc, List.drop_left]
        have hlen : q.length = c2.length + e.length := by rw [hqc, List.length_append]
        have hfact := phrases_split_after_space q hq p hp c2.length (by omega)
          (by rw [htake, List.getLast?_eq_getLast _ hc2, h32])
        rw [hdrop] at hfact
        have h1 : e <+: e ++ y := ⟨y, rfl⟩
        have h2 : p <+: e ++ y := ⟨b, hpb⟩
        rcases List.prefix_or_prefix_of_prefix h1 h2 with h3 | h3
        · rw [List.isPrefixOf_iff_prefix.mpr h3] at hfact
          exact absurd hfact.1 (by decide)
        · rw [List.isPrefixOf_iff_prefix.mpr h3] at hfact
          exact absurd hfact.2 (by decide)

/-! ## Lemmas on `stripPhrases` -/

theorem wordsGone_replaceFirst (p q t : JSString) (h : WordsGone p t) :
    WordsGone p (replaceFirst q [32] t) := by
  rcases replaceFirst_cases q [32] t with ⟨_, hun⟩ | ⟨x, y, hxy, hrep⟩
  · rw [hun]; exact h
  · intro w hw hin
    rw [hrep, List.append_assoc] at hin
    have h32 := (mem_splitOnSpace p w hw).2
    rcases infix_of_infix_space w x y h32 hin with h1 | h1
    · exact h w hw (by rw [hxy]; exact h1.trans ⟨[], q ++ y, by simp⟩)
    · exact h w hw (by rw [hxy]; exact h1.trans ⟨x ++ q, [], by simp⟩)

theorem wordsGone_stripPhrases (p : JSString) (found : List JSString) (t : JSString)
    (h : WordsGone p t) : WordsGone p (stripPhrases found t) := by
  induction found generalizing t with
  | nil => exact h
  | cons q rest ih => exact ih _ (wordsGone_replaceFirst p q t h)

theorem phraseIntact_replaceFirst (p q t : JSString) (hp : p ∈ multiPhrases)
    (hq : q ∈ multiPhrases) (hne : q ≠ p) (h : PhraseIntact p t) :
    PhraseIntact p (replaceFirst q [32] t) := by
  rcases replaceFirst_cases q [32] t with ⟨_, hun⟩ | ⟨x, y, hxy, hrep⟩
  · rw [hun]; exact h
  · obtain ⟨a, b, hab, hl, hr, hw⟩ := h
    rw [hrep]
    rcases occurrence_cases p q a b x y hp hq (hab ▸ hxy) hl hr with
      ⟨m, ha, hy⟩ | ⟨m, hb, hx⟩ | ⟨hqp, _, _⟩
    · refine ⟨x ++ [32] ++ m, b, by rw [hy]; simp, ?_, hr, ?_⟩
      · intro c hc
        by_cases hm : m = []
        · subst hm
          simpa using hc.symm
        · rw [List.getLast?_append_of_ne_nil _ hm] at hc
          apply hl c
          rw [ha, List.getLast?_append_of_ne_nil _ hm]
          exact hc
      · intro w hmem
        refine ⟨?_, (hw w hmem).2⟩
        intro hin
        rw [List.append_assoc] at hin
        have h32 := (mem_splitOnSpace p w hmem).2
        rcases infix_of_infix_space w x m h32 hin with h1 | h1
        · exact (hw w hmem).1 (by rw [ha]; exact h1.trans ⟨[], q ++ m, by simp⟩)
        · exact (hw w hmem).1 (by rw [ha]; exact h1.trans ⟨x ++ q, [], by simp⟩)
    · refine ⟨a, m ++ [32] ++ y, by rw [hx]; simp, hl, ?_, ?_⟩
      · intro c hc
        cases m with
        | nil => simpa using hc.symm
        | cons d m =>
          apply hr c
          rw [hb]
          simpa using hc
      · intro w hmem
        refine ⟨(hw w hmem).1, ?_⟩
        intro hin
        rw [List.append_assoc] at hin
        have h32 := (mem_splitOnSpace p w hmem).2
        rcases infix_of_infix_space w m y h32 hin with h1 | h1
        · exact (hw w hmem).2 (by rw [hb]; exact h1.trans ⟨[], q ++ y, by simp⟩)
        · exact (hw w hmem).2 (by rw [hb]; exact h1.trans ⟨m ++ q, [], by simp⟩)
    · exact absurd hqp hne

theorem wordsGone_replaceFirst_self (p t : JSString) (hp : p ∈ multiPhrases)
    (h : PhraseIntact p t) : WordsGone p (replaceFirst p [32] t) := by
  obtain ⟨a, b, hab, hl, hr, hw⟩ := h
  obtain ⟨w1, ws, hsp, hpre, -⟩ := splitOnSpace_head p
  have hw1 : w1 ∈ splitOnSpace p := by rw [hsp]; exact List.mem_cons_self _ _
  rcases replaceFirst_cases p [32] t with ⟨hnot, _⟩ | ⟨x, y, hxy, hrep⟩
  · exact absurd ⟨a, b, hab.symm⟩ hnot
  · rw [hrep]
    rcases occurrence_cases p p a b x y hp hp (hab ▸ hxy) hl hr with
      ⟨m, ha, _⟩ | ⟨m, hb, _⟩ | ⟨_, hx, hy⟩
    · exfalso
      apply (hw w1 hw1).1
      rw [ha]
      exact hpre.isInfix.trans ⟨x, m, rfl⟩
    · exfalso
      apply (hw w1 hw1).2
      rw [hb]
      exact hpre.isInfix.trans ⟨m, y, rfl⟩
    · subst hx; subst hy
      intro w hmem hin
      rw [List.append_assoc] at hin
      have h32 := (mem_splitOnSpace p w hmem).2
      rcases infix_of_infix_space w x y h32 hin with h1 | h1
      · exact (hw w hmem).1 h1
      · exact (hw w hmem).2 h1

theorem wordsGone_stripPhrases_of_intact (p : JSString) (found : List JSString) (t : JSString)
    (hp : p ∈ multiPhrases) (hfound : ∀ q ∈ found, q ∈ multiPhrases) (hmem : p ∈ found)
    (h : PhraseIntact p t) : WordsGone p (stripPhrases found t) := by
  induction found generalizing t with
  | nil => simp at hmem
  | cons q rest ih =>
    have hrest : ∀ r ∈ rest, r ∈ multiPhrases := fun r hr => hfound r (List.mem_cons_of_mem _ hr)
    by_cases hqp : q = p
    · subst hqp
      exact wordsGone_stripPhrases q rest _ (wordsGone_replaceFirst_self q t hp h)
    · have hmem2 : p ∈ rest := by
        rcases List.mem_cons.mp hmem with h1 | h1
        · exact absurd h1.symm hqp
        · exact h1
      exact ih _ hrest hmem2
        (phraseIntact_replaceFirst p q t hp (hfound q (List.mem_cons_self _ _)) hqp h)

/-! ## The case tables play no part on code units below 128 -/

theorem toLowerCaseFrom_below (U : CaseTables) (before : List Nat) (s : JSString)
    (h : ∀ c ∈ s, c < 128) : toLowerCaseFrom U before s = s.map asciiLower := by
  induction s generalizing before with
  | nil => rfl
  | cons c rest ih =>
    have hc : c < 128 := h c (List.mem_cons_self _ _)
    simp only [toLowerCaseFrom, hc, if_true, List.singleton_append, List.map_cons,
      ih (c :: before) (fun d hd => h d (List.mem_cons_of_mem _ hd))]

theorem cleanText_below (U V : CaseTables) (s : JSString) (h : ∀ c ∈ s, c < 128) :
    cleanText U s = cleanText V s := by
  unfold cleanText toLowerCase
  rw [toLowerCaseFrom_below U [] s h, toLowerCaseFrom_below V [] s h]

theorem extractKeywordsFromJD_allowed (U V : CaseTables) (j : JSString)
    (h : ∀ c ∈ j, Allowed c) : extractKeywordsFromJD U j = extractKeywordsFromJD V j := by
  unfold extractKeywordsFromJD
  rw [toLowerCase_allowed U j h, toLowerCase_allowed V j h]

/-! ## Theorems on `cleanText` -/

/-- C4: `cleanText` is idempotent: for every string `s` and whatever the engine's
case mapping of non-ASCII code units, `cleanText(cleanText(s)) = cleanText(s)`. -/
theorem cleanText_idempotent (U : CaseTables) (s : JSString) :
    cleanText U (cleanText U s) = cleanText U s :=
  cleanText_fixed U _ (normalized_cleanText U s)

/-- C5: for every string `s` (the empty one included), `cleanText(s)` has only
characters of `a-z`, `0-9`, `+`, `#` and the space, does not begin with a space,
does not end with a space and has no two consecutive spaces. -/
theorem cleanText_shape (U : CaseTables) (s : JSString) :
    (∀ c ∈ cleanText U s, (97 ≤ c ∧ c ≤ 122) ∨ (48 ≤ c ∧ c ≤ 57) ∨ c = 43 ∨ c = 35 ∨ c = 32)
      ∧ (cleanText U s).head? ≠ some 32
      ∧ (cleanText U s).getLast? ≠ some 32
      ∧ ¬ ([32, 32] <:+: cleanText U s) := by
  have h := normalized_cleanText U s
  refine ⟨?_, h.head, h.last, ?_⟩
  · intro c hc
    rcases h.allowed c hc with h1 | h1
    · simp only [isKept, decide_eq_true_eq] at h1
      omega
    · omega
  · intro hin
    have := List.Chain'.infix h.chain hin
    simp [NoWsPair, isWhiteSpace_space] at this

/-! ## Theorems on `findPresentAndMissing` -/

/-- C1: for every resume text and every list of keywords, `findPresentAndMissing`
returns two sets `present` and `missing`; a string is in one of them exactly when it
is a keyword of the list, and no string is in both: their union is the set of the
keywords and their intersection is empty. -/
theorem findPresentAndMissing_partition (U : CaseTables) (resumeText : JSString)
    (jdKeywords : List JSString) :
    ∃ res, findPresentAndMissing U resumeText jdKeywords = some res
      ∧ (∀ k, (k ∈ res.present ∨ k ∈ res.missing) ↔ k ∈ jdKeywords)
      ∧ (∀ k, ¬ (k ∈ res.present ∧ k ∈ res.missing)) := by
  obtain ⟨res, hres, hp, hm⟩ := findPresentAndMissing_spec U resumeText jdKeywords
  refine ⟨res, hres, ?_, ?_⟩
  · intro k
    rw [hp k, hm k]
    constructor
    · rintro (h | h) <;> exact h.1
    · intro h
      cases hk : keywordMatches U (toLowerCase U resumeText) k
      · exact Or.inr ⟨h, rfl⟩
      · exact Or.inl ⟨h, rfl⟩
  · intro k
    rw [hp k, hm k]
    rintro ⟨⟨_, h1⟩, ⟨_, h2⟩⟩
    rw [h1] at h2
    exact absurd h2 (by decide)

/-- C2: for every normalised resume text `r = cleanText(s)` and every keyword `k`
over `a-z`, `0-9`, `+`, `#` and the space that starts and ends with a letter or
digit, `findPresentAndMissing(r, [k])` puts `k` in `present` exactly when `k` occurs
in `r` neither immediately preceded nor immediately followed by a letter or digit,
and in `missing` otherwise; `"sql"` is missing for `cleanText("mysql")` and present
for `cleanText("SQL Server skills")`. -/
theorem findPresentAndMissing_boundary (U : CaseTables) (s k : JSString)
    (hk : ∀ c ∈ k, (97 ≤ c ∧ c ≤ 122) ∨ (48 ≤ c ∧ c ≤ 57) ∨ c = 43 ∨ c = 35 ∨ c = 32)
    (hfirst : ∃ c, k.head? = some c ∧ isLetterOrDigit c = true)
    (hlast : ∃ c, k.getLast? = some c ∧ isLetterOrDigit c = true) :
    (∃ res, findPresentAndMissing U (cleanText U s) [k] = some res
        ∧ (k ∈ res.present ↔ BoundaryOccurrence k (cleanText U s))
        ∧ (k ∈ res.missing ↔ ¬ BoundaryOccurrence k (cleanText U s)))
      ∧ findPresentAndMissing U (cleanText U (str "mysql")) [str "sql"]
          = some ⟨[], [str "sql"]⟩
      ∧ findPresentAndMissing U (cleanText U (str "SQL Server skills")) [str "sql"]
          = some ⟨[str "sql"], []⟩ := by
  refine ⟨?_, rfl, rfl⟩
  have hnorm := normalized_cleanText U s
  have hk2 : ∀ c ∈ k, Allowed c := by
    intro c hc
    rcases hk c hc with h | h | h | h | h
    · exact Or.inl (by simp only [isKept, decide_eq_true_eq]; omega)
    · exact Or.inl (by simp only [isKept, decide_eq_true_eq]; omega)
    · exact Or.inl (by simp only [isKept, decide_eq_true_eq]; omega)
    · exact Or.inl (by simp only [isKept, decide_eq_true_eq]; omega)
    · exact Or.inr h
  obtain ⟨c1, hc1, hl1⟩ := hfirst
  obtain ⟨c2, hc2, hl2⟩ := hlast
  have hne : k ≠ [] := by
    rintro rfl
    simp at hc1
  have hhead : k.head hne = c1 := by
    rw [List.head?_eq_head hne] at hc1
    exact Option.some.inj hc1
  have hlst : k.getLast hne = c2 := by
    rw [List.getLast?_eq_getLast _ hne] at hc2
    exact Option.some.inj hc2
  have hiff := keywordMatches_allowed U (cleanText U s) k hnorm.allowed hk2 hne
    (hhead ▸ hl1) (hlst ▸ hl2)
  obtain ⟨res, hres, hp, hm⟩ := findPresentAndMissing_spec U (cleanText U s) [k]
  rw [toLowerCase_allowed U _ hnorm.allowed] at hp hm
  refine ⟨res, hres, ?_, ?_⟩
  · rw [hp k, ← hiff]
    simp
  · rw [hm k, ← hiff]
    simp

/-- The keyword `"sql"` in the text `"SQL Server skills"`: an instance of C2. -/
theorem findPresentAndMissing_boundary_witness :
    (∀ c ∈ str "sql", (97 ≤ c ∧ c ≤ 122) ∨ (48 ≤ c ∧ c ≤ 57) ∨ c = 43 ∨ c = 35 ∨ c = 32)
      ∧ (∃ c, (str "sql").head? = some c ∧ isLetterOrDigit c = true)
      ∧ (∃ c, (str "sql").getLast? = some c ∧ isLetterOrDigit c = true)
      ∧ ∃ res, findPresentAndMissing CaseTables.unchanged
            (cleanText CaseTables.unchanged (str "SQL Server skills")) [str "sql"] = some res
          ∧ (str "sql" ∈ res.present ↔
              BoundaryOccurrence (str "sql")
                (cleanText CaseTables.unchanged (str "SQL Server skills")))
          ∧ (str "sql" ∈ res.missing ↔
              ¬ BoundaryOccurrence (str "sql")
                (cleanText CaseTables.unchanged (str "SQL Server skills"))) :=
  ⟨by decide, ⟨115, rfl, rfl⟩, ⟨108, rfl, rfl⟩,
    (findPresentAndMissing_boundary CaseTables.unchanged (str "SQL Server skills") (str "sql")
      (by decide) ⟨115, rfl, rfl⟩ ⟨108, rfl, rfl⟩).1⟩

/-- C3, as the code behaves: the pattern built for the keyword `"c++"` ends with
`\b` after a `+`, which asks for a letter, digit or underscore right after the
keyword; for the texts `cleanText("C++")` = `"c++"` and
`cleanText("I know C++ and Java")` the keyword `"c++"` is put in `missing`, not in
`present`. -/
theorem cpp_keyword_missing (U : CaseTables) :
    cleanText U (str "C++") = str "c++"
      ∧ findPresentAndMissing U (cleanText U (str "C++")) [str "c++"]
          = some ⟨[], [str "c++"]⟩
      ∧ cleanText U (str "I know C++ and Java") = str "i know c++ and java"
      ∧ findPresentAndMissing U (cleanText U (str "I know C++ and Java")) [str "c++"]
          = some ⟨[], [str "c++"]⟩ :=
  ⟨rfl, rfl, rfl, rfl⟩

/-! ## Theorems on `extractKeywordsFromJD` -/

/-- C6: for every normalised job-description text `j = cleanText(s)` and every
phrase `p` of the known-phrase list, if `p` occurs in `j` as a substring then `p` is
an element of `extractKeywordsFromJD(j)`, whatever other known phrases occur in `j`
and wherever they occur. -/
theorem extractKeywordsFromJD_phrase (U : CaseTables) (s p : JSString)
    (hp : p ∈ multiPhrases) (hin : p <:+: cleanText U s) :
    p ∈ extractKeywordsFromJD U (cleanText U s) :=
  mem_extractKeywordsFromJD_of_phrase U s p hp hin

/-- The phrases `"data analysis"` and `"sql server"`, whose occurrences overlap in
`"data analysisql server"`: an instance of C6. -/
theorem extractKeywordsFromJD_phrase_witness :
    str "sql server" ∈ multiPhrases
      ∧ str "sql server" <:+: cleanText CaseTables.unchanged (str "Data analysiSQL server")
      ∧ str "sql server" ∈ extractKeywordsFromJD CaseTables.unchanged
          (cleanText CaseTables.unchanged (str "Data analysiSQL server")) :=
  ⟨by decide, by decide,
    extractKeywordsFromJD_phrase CaseTables.unchanged (str "Data analysiSQL server")
      (str "sql server") (by decide) (by decide)⟩

/-- C7, amended: for every normalised job-description text `j = cleanText(s)` and
every known phrase `p` that occurs in `j` exactly once, between `a` and `b`, as whole
words (`a` is empty or ends with a space, `b` is empty or starts with a space), such
that no word of `p` occurs in `a` or in `b`, `extractKeywordsFromJD(j)` contains `p`
and none of the words of `p`. For
`j = cleanText("Experience with SQL Server and machine learning required.")` the
result is `and`, `experience`, `machine learning`, `required`, `sql server`, `with`. -/
theorem extractKeywordsFromJD_phrase_words (U : CaseTables) (s a b p : JSString)
    (hp : p ∈ multiPhrases) (hj : cleanText U s = a ++ p ++ b)
    (_honce : occurrences p (cleanText U s) = 1)
    (hout : ∀ w ∈ splitOnSpace p, ¬ w <:+: a ∧ ¬ w <:+: b)
    (hleft : a = [] ∨ a.getLast? = some 32) (hright : b = [] ∨ b.head? = some 32) :
    (p ∈ extractKeywordsFromJD U (cleanText U s)
        ∧ ∀ w ∈ splitOnSpace p, w ∉ extractKeywordsFromJD U (cleanText U s))
      ∧ extractKeywordsFromJD U
          (cleanText U (str "Experience with SQL Server and machine learning required."))
        = [str "and", str "experience", str "machine learning", str "required",
            str "sql server", str "with"] := by
  refine ⟨⟨mem_extractKeywordsFromJD_of_phrase U s p hp ⟨a, b, hj.symm⟩, ?_⟩, ?_⟩
  · have hallowed := (normalized_cleanText U s).allowed
    have hl : ∀ c, a.getLast? = some c → c = 32 := by
      intro c hc
      rcases hleft with h | h
      · subst h; simp at hc
      · rw [h] at hc; exact (Option.some.inj hc).symm
    have hr : ∀ c, b.head? = some c → c = 32 := by
      intro c hc
      rcases hright with h | h
      · subst h; simp at hc
      · rw [h] at hc; exact (Option.some.inj hc).symm
    have hintact : PhraseIntact p (cleanText U s) := ⟨a, b, hj, hl, hr, hout⟩
    have hfoundp : p ∈ foundPhrases (cleanText U s) :=
      (mem_foundPhrases _ p).mpr ⟨hp, ⟨a, b, hj.symm⟩⟩
    have hgone := wordsGone_stripPhrases_of_intact p (foundPhrases (cleanText U s))
      (cleanText U s) hp (fun q hq => ((mem_foundPhrases _ q).mp hq).1) hfoundp hintact
    intro w hw hmem
    rw [mem_extractKeywordsFromJD, toLowerCase_allowed U _ hallowed] at hmem
    rcases hmem with ⟨htok, _⟩ | hph
    · exact hgone w hw (mem_splitOnSpace _ w htok).1
    · exact (mem_splitOnSpace p w hw).2
        (phrases_have_space w ((mem_foundPhrases _ w).mp hph).1)
  · have h1 : cleanText U (str "Experience with SQL Server and machine learning required.")
        = str "experience with sql server and machine learning required" :=
      (cleanText_below U CaseTables.unchanged _ (by decide)).trans (by decide)
    rw [h1, extractKeywordsFromJD_allowed U CaseTables.unchanged _ (by decide)]
    decide

/-- The phrase `"sql server"` in the job description of scenario 1: an instance of
the amended C7. -/
theorem extractKeywordsFromJD_phrase_words_witness :
    str "sql server" ∈ multiPhrases
      ∧ cleanText CaseTables.unchanged
            (str "Experience with SQL Server and machine learning required.")
          = str "experience with " ++ str "sql server" ++ str " and machine learning required"
      ∧ occurrences (str "sql server") (cleanText CaseTables.unchanged
            (str "Experience with SQL Server and machine learning required.")) = 1
      ∧ (∀ w ∈ splitOnSpace (str "sql server"),
          ¬ w <:+: str "experience with " ∧ ¬ w <:+: str " and machine learning required")
      ∧ (str "experience with " = [] ∨ (str "experience with ").getLast? = some 32)
      ∧ (str " and machine learning required" = []
          ∨ (str " and machine learning required").head? = some 32)
      ∧ str "sql server" ∈ extractKeywordsFromJD CaseTables.unchanged
          (cleanText CaseTables.unchanged
            (str "Experience with SQL Server and machine learning required."))
      ∧ ∀ w ∈ splitOnSpace (str "sql server"),
          w ∉ extractKeywordsFromJD CaseTables.unchanged
            (cleanText CaseTables.unchanged
              (str "Experience with SQL Server and machine learning required.")) :=
  ⟨by decide, by decide, by decide, by decide, by decide, by decide,
    (extractKeywordsFromJD_phrase_words CaseTables.unchanged
      (str "Experience with SQL Server and machine learning required.")
      (str "experience with ") (str " and machine learning required") (str "sql server")
      (by decide) (by decide) (by decide) (by decide) (by decide) (by decide)).1⟩

set_option maxRecDepth 100000 in
/-- C7 as stated fails: in the normalised text `"data analysisql server"` the phrase
`"sql server"` occurs exactly once and its words `sql` and `server` occur nowhere
else, yet `"data analysis"` is stripped first, which takes the `s` away, and
`"server"` comes out as a keyword of its own. -/
theorem phrase_words_counterexample :
    cleanText CaseTables.unchanged (str "data analysisql server") = str "data analysisql server"
      ∧ str "sql server" ∈ multiPhrases
      ∧ str "data analysisql server" = str "data analysi" ++ str "sql server" ++ []
      ∧ occurrences (str "sql server") (str "data analysisql server") = 1
      ∧ (∀ w ∈ splitOnSpace (str "sql server"), ¬ w <:+: str "data analysi" ∧ ¬ w <:+: [])
      ∧ (∀ w ∈ splitOnSpace (str "sql server"),
          occurrences w (str "data analysisql server") = 1)
      ∧ str "server" ∈ splitOnSpace (str "sql server")
      ∧ extractKeywordsFromJD CaseTables.unchanged (str "data analysisql server")
          = [str "data analysis", str "server", str "sql server"]
      ∧ str "server" ∈ extractKeywordsFromJD CaseTables.unchanged
          (str "data analysisql server") := by
  decide

set_option maxRecDepth 100000 in
/-- Asking only that no other known phrase overlaps the occurrence of `p` in the text
as given is not enough: in `"datamachine learninganalysisql server data analysis"`
the occurrences of `"machine learning"`, `"sql server"` and `"data analysis"` are
apart, `"sql server"` occurs once and its words nowhere else; stripping
`"machine learning"` joins `data` and `analysis` into a second `"data analysis"` in
front of `sql server`, and `"server"` comes out as a keyword. -/
theorem phrase_words_joined_overlap :
    cleanText CaseTables.unchanged (str "datamachine learninganalysisql server data analysis")
        = str "datamachine learninganalysisql server data analysis"
      ∧ str "datamachine learninganalysisql server data analysis"
          = str "data" ++ str "machine learning" ++ str "analysi" ++ str "sql server"
              ++ str " " ++ str "data analysis"
      ∧ occurrences (str "sql server")
          (str "datamachine learninganalysisql server data analysis") = 1
      ∧ occurrences (str "machine learning")
          (str "datamachine learninganalysisql server data analysis") = 1
      ∧ occurrences (str "data analysis")
          (str "datamachine learninganalysisql server data analysis") = 1
      ∧ (∀ w ∈ splitOnSpace (str "sql server"),
          occurrences w (str "datamachine learninganalysisql server data analysis") = 1)
      ∧ extractKeywordsFromJD CaseTables.unchanged
          (str "datamachine learninganalysisql server data analysis")
          = [str "analysis", str "data", str "data analysis", str "machine learning",
              str "server", str "sql server"] := by
  decide

/-- C8: for every job-description text `j`, normalised or not, the list that
`extractKeywordsFromJD(j)` returns is in strictly ascending lexicographic order of
code units: it is sorted and has no string twice. -/
theorem extractKeywordsFromJD_sorted (U : CaseTables) (j : JSString) :
    List.Sorted (List.Lex (· < ·)) (extractKeywordsFromJD U j)
      ∧ (extractKeywordsFromJD U j).Nodup := by
  have hnd : (List.foldl setAdd
      (newSet ((splitOnSpace (stripPhrases (foundPhrases (toLowerCase U j))
        (toLowerCase U j))).filter fun t => decide (t.length > 2)))
      (foundPhrases (toLowerCase U j))).Nodup :=
    nodup_foldl_setAdd _ _ (nodup_newSet _)
  refine ⟨sorted_sort _ hnd, ?_⟩
  exact (List.perm_insertionSort _ _).nodup_iff.mpr hnd

/-! ## Theorems on the score -/

/-- C9: for every resume text and every job-description text the handler's
computation returns, and its score `round(presentCount * 10000 / total) / 100`, in
exact rational arithmetic with halves rounded upward, is between 0 and 100. -/
theorem analyze_score_bounds (U : CaseTables) (resumeRaw jdRaw : JSString) :
    ∃ a, analyze U resumeRaw jdRaw = some a
      ∧ a.jdKeywords = extractKeywordsFromJD U (cleanText U jdRaw)
      ∧ findPresentAndMissing U (cleanText U resumeRaw) a.jdKeywords = some a.result
      ∧ a.total = (if a.jdKeywords.length = 0 then 1 else a.jdKeywords.length)
      ∧ a.score
          = (mathRound (((a.result.present.length * 10000 : Nat) : ℚ) / (a.total : ℚ)) : ℚ) / 100
      ∧ 0 ≤ a.score ∧ a.score ≤ 100 := by
  obtain ⟨res, hres, hp, -⟩ :=
    findPresentAndMissing_spec U (cleanText U resumeRaw)
      (extractKeywordsFromJD U (cleanText U jdRaw))
  have hnd : res.present.Nodup := classifyAll_nodup U _ _ ⟨[], []⟩ res hres List.nodup_nil
  have hsub : res.present ⊆ extractKeywordsFromJD U (cleanText U jdRaw) :=
    fun k hk => ((hp k).mp hk).1
  have hlen : res.present.length ≤ (extractKeywordsFromJD U (cleanText U jdRaw)).length :=
    (hnd.subperm hsub).length_le
  have han : analyze U resumeRaw jdRaw
      = some (scoreOf (extractKeywordsFromJD U (cleanText U jdRaw)) res) := by
    unfold analyze
    simp only [hres, Option.map_some']
  generalize extractKeywordsFromJD U (cleanText U jdRaw) = kws at hres hlen han
  have hb := scoreOf_bounds kws res hlen
  exact ⟨scoreOf kws res, han, rfl, hres, rfl, rfl, hb.1, hb.2⟩

/-- C10: when the normalisation of the job description is the empty string, for
every resume text `extractKeywordsFromJD` returns the empty list,
`findPresentAndMissing` returns empty `present` and `missing` sets, the divisor
`total` is 1 and the score is exactly 0. -/
theorem analyze_empty_jd (U : CaseTables) (resumeRaw jdRaw : JSString)
    (hjd : cleanText U jdRaw = []) :
    extractKeywordsFromJD U (cleanText U jdRaw) = []
      ∧ findPresentAndMissing U (cleanText U resumeRaw)
          (extractKeywordsFromJD U (cleanText U jdRaw)) = some ⟨[], []⟩
      ∧ ∃ a, analyze U resumeRaw jdRaw = some a
          ∧ a.jdKeywords = [] ∧ a.result = ⟨[], []⟩ ∧ a.total = 1 ∧ a.score = 0 := by
  have hex : extractKeywordsFromJD U [] = [] := rfl
  have hfind : findPresentAndMissing U (cleanText U resumeRaw) [] = some ⟨[], []⟩ := rfl
  rw [hjd, hex]
  refine ⟨rfl, hfind, scoreOf [] ⟨[], []⟩, ?_, rfl, rfl, rfl, ?_⟩
  · unfold analyze
    simp only [hjd, hex, hfind, Option.map_some']
  · simp only [scoreOf, mathRound]
    norm_num

/-- The job descriptions `""` and `"?! "`, against the resume `"C++ and SQL"`:
instances of C10. -/
theorem analyze_empty_jd_witness :
    cleanText CaseTables.unchanged (str "?! ") = []
      ∧ (extractKeywordsFromJD CaseTables.unchanged
            (cleanText CaseTables.unchanged (str "?! ")) = []
        ∧ findPresentAndMissing CaseTables.unchanged
            (cleanText CaseTables.unchanged (str "C++ and SQL"))
            (extractKeywordsFromJD CaseTables.unchanged
              (cleanText CaseTables.unchanged (str "?! "))) = some ⟨[], []⟩
        ∧ ∃ a, analyze CaseTables.unchanged (str "C++ and SQL") (str "?! ") = some a
            ∧ a.jdKeywords = [] ∧ a.result = ⟨[], []⟩ ∧ a.total = 1 ∧ a.score = 0)
      ∧ ∃ a, analyze CaseTables.unchanged (str "C++ and SQL") (str "") = some a
            ∧ a.jdKeywords = [] ∧ a.result = ⟨[], []⟩ ∧ a.total = 1 ∧ a.score = 0 :=
  ⟨rfl, analyze_empty_jd CaseTables.unchanged (str "C++ and SQL") (str "?! ") rfl,
    (analyze_empty_jd CaseTables.unchanged (str "C++ and SQL") (str "") rfl).2.2⟩

end ResumeAnalyzer
